import Mathlib

/-!
# Verification of the taint-tracking core of `dd-trace-py`'s `_native` module

The repository ships the CPython binding `_native.cpp`, which registers the
module surface (`setup`, `new_pyobject_id`, and the `TaintRange` / `Source`
type objects) and whose initialisation function `PyInit__native` is embedded
below line by line.  The taint-range model, the range-set merge algebra, the
propagation engine, the tainted-object registry and the identity allocator are
declared by that binding but implemented outside the files available here, so
those components are modelled faithfully from the specification's own wording
(each such definition carries a `Modelled from the spec:` doc comment).
-/

/-- Modelled from the spec: the missing `Source/Source.h` implementation.
A `Source` is an immutable description of where a tainted value originated:
a `name`, an enumerated `originCategory`, and an optional bounded
`capturedValue` kept only for diagnostics. -/
structure Source where
  name : String
  originCategory : Nat
  capturedValue : Option String
  deriving DecidableEq, Repr

/-- Modelled from the spec: Source equality is structural on
`(name, origin_category)`; `captured_value` is excluded so that merge
decisions are diagnostic-value-independent. -/
def Source.equals (a b : Source) : Bool :=
  decide (a.name = b.name ∧ a.originCategory = b.originCategory)

/-- Modelled from the spec: the missing `TaintRange/TaintRange.h`
implementation.  A `TaintRange` is an immutable interval
`[start, start+length)` tagged with a reference to a `Source`. -/
structure TaintRange where
  start : Nat
  length : Nat
  source : Source
  deriving DecidableEq, Repr

/-- One-past-the-end offset of a range (the spec's `start + length`). -/
def TaintRange.stop (r : TaintRange) : Nat := r.start + r.length

/-- Modelled from the spec: half-open intervals overlap or are byte-adjacent
(the merge trigger for ranges of one Source). -/
def TaintRange.touches (a b : TaintRange) : Bool :=
  decide (a.start ≤ b.stop ∧ b.start ≤ a.stop)

/-- Modelled from the spec: standard half-open interval overlap test. -/
def TaintRange.overlaps (a b : TaintRange) : Bool :=
  decide (a.start < b.stop ∧ b.start < a.stop)

/-- Modelled from the spec: the merge rule for two ranges of one Source —
the union interval, `new range length = max(end) − min(start)`, keeping the
(shared) Source reference of the accumulating range. -/
def TaintRange.hull (a b : TaintRange) : TaintRange :=
  { start := min a.start b.start
    length := max a.stop b.stop - min a.start b.start
    source := a.source }

/-- Modelled from the spec: the RangeSet order — `start` ascending with ties
broken by `length` ascending. -/
def TaintRange.keyLE (a b : TaintRange) : Bool :=
  decide (a.start < b.start ∨ (a.start = b.start ∧ a.length ≤ b.length))

/-- Modelled from the spec: shift of a range by a non-negative offset, as
used by `merge_all` for concatenation-like operations. -/
def TaintRange.shiftedBy (r : TaintRange) (d : Nat) : TaintRange :=
  { r with start := r.start + d }

/-- Modelled from the spec: `clipped(range, window_start, window_end)` — the
intersection of the range with `[window_start, window_end)` re-based to the
window's own origin; `none` when the intersection is empty (not an error). -/
def TaintRange.clipped (r : TaintRange) (ws we : Nat) : Option TaintRange :=
  if max r.start ws < min r.stop we then
    some { start := max r.start ws - ws
           length := min r.stop we - max r.start ws
           source := r.source }
  else none

/-- Modelled from the spec: range construction errors — `InvalidRange` for
malformed interval parameters. -/
inductive RangeError where
  | invalidRange
  deriving DecidableEq, Repr

/-- Modelled from the spec: `TaintRange.create(start, length, source)` fails
with `InvalidRange` when `length <= 0` or `start < 0`, and otherwise returns
the range exactly as requested (never clamped). -/
def TaintRange.create (start length : Int) (source : Source) :
    Except RangeError TaintRange :=
  if length ≤ 0 ∨ start < 0 then .error .invalidRange
  else .ok { start := start.toNat, length := length.toNat, source := source }

/-- Modelled from the spec: a RangeSet is an ordered, merge-maintaining
sequence of TaintRanges belonging to one tracked value. -/
abbrev RangeSet := List TaintRange

namespace RangeSet

/-- Modelled from the spec: an existing range is merged with an inserted
range `r` exactly when it refers to the same Source and overlaps or touches
`r`. -/
def mergePred (r x : TaintRange) : Bool :=
  Source.equals x.source r.source && x.touches r

/-- Modelled from the spec: placement of a range into the sorted sequence
(`start` ascending, ties by `length` ascending, equal keys after existing
entries, i.e. insertion order). -/
def insertSorted : RangeSet → TaintRange → RangeSet
  | [], r => [r]
  | x :: xs, r => if x.keyLE r then x :: insertSorted xs r else r :: x :: xs

/-- Modelled from the spec: `insert(set, range)` — merge the new range with
every existing range of the same Source that overlaps or touches it (a
linear scan), then place the merged range into the sorted remainder. -/
def insert (s : RangeSet) (r : TaintRange) : RangeSet :=
  insertSorted (s.filter (fun x => !(mergePred r x)))
    ((s.filter (fun x => mergePred r x)).foldl TaintRange.hull r)

/-- Folding `insert` over a list of ranges. -/
def insertAll (s : RangeSet) (rs : List TaintRange) : RangeSet :=
  rs.foldl insert s

/-- Modelled from the spec: `merge_all(sets, offsets)` — shift each input
set's ranges by its corresponding offset, then insert all shifted ranges
into one output set using the same same-Source merge rule. -/
def merge_all (sets : List RangeSet) (offsets : List Nat) : RangeSet :=
  (sets.zip offsets).foldl
    (fun acc p => insertAll acc (p.1.map (fun r => r.shiftedBy p.2))) []

/-- Modelled from the spec: `slice(set, window_start, window_end)` — clip
every range to the window, re-based to 0, discarding empties. -/
def slice (s : RangeSet) (ws we : Nat) : RangeSet :=
  s.filterMap (fun r => r.clipped ws we)

end RangeSet

/-- Cumulative offsets `0, l1, l1+l2, ...` of a sequence of part lengths. -/
def cumOffsets : List Nat → List Nat
  | [] => []
  | l :: ls => 0 :: (cumOffsets ls).map (· + l)

/-- Modelled from the spec: `propagate_concat(parts)` computes cumulative
offsets of the operand lengths and delegates to `RangeSet.merge_all`. -/
def propagate_concat (parts : List (RangeSet × Nat)) : RangeSet :=
  RangeSet.merge_all (parts.map Prod.fst) (cumOffsets (parts.map Prod.snd))

/-- Modelled from the spec: `propagate_replace` — three-part concatenation of
the untouched sliced head `[0, match_start)`, the replacement set shifted by
`match_start`, and the untouched sliced tail
`[match_start+match_length, source_length)` landing at
`match_start + replacement_length`; all three merged via `merge_all`. -/
def propagate_replace (sourceSet : RangeSet) (sourceLength matchStart matchLength : Nat)
    (replacementSet : RangeSet) (replacementLength : Nat) : RangeSet :=
  RangeSet.merge_all
    [RangeSet.slice sourceSet 0 matchStart,
     replacementSet,
     RangeSet.slice sourceSet (matchStart + matchLength) sourceLength]
    [0, matchStart, matchStart + replacementLength]

/-- Identity tokens keying the tainted-object registry. -/
abbrev Identity := Nat

/-- Modelled from the spec: the missing `TaintedObject/TaintedObject.h`
implementation — a process-wide table associating a tracked value's identity
with its RangeSet. -/
abbrev Registry := List (Identity × RangeSet)

namespace Registry

/-- Modelled from the spec: `attach(identity, range_set)` associates the set
with the identity, replacing any prior association. -/
def attach (reg : Registry) (ident : Identity) (s : RangeSet) : Registry :=
  (ident, s) :: reg.filter (fun e => e.1 != ident)

/-- Modelled from the spec: `lookup(identity)` returns the associated
RangeSet, or `none` (the spec's `not_found`, a normal non-error outcome). -/
def lookup (reg : Registry) (ident : Identity) : Option RangeSet :=
  (reg.find? (fun e => e.1 == ident)).map Prod.snd

/-- Modelled from the spec: `forget(identity)` / `detach(identity)` removes
the association for the identity. -/
def forget (reg : Registry) (ident : Identity) : Registry :=
  reg.filter (fun e => e.1 != ident)

/-- Modelled from the spec: callers treat a `not_found` lookup identically to
an empty RangeSet. -/
def get_ranges (reg : Registry) (ident : Identity) : RangeSet :=
  (reg.lookup ident).getD []

end Registry

/-- Modelled from the spec: the identity allocator behind `new_pyobject_id` —
an atomically incremented counter; one call returns the current counter and
the successor state. -/
def next_id (st : Nat) : Nat × Nat := (st, st + 1)

/-- Identifier returned by the `k`-th call to `next_id` starting from
allocator state `st`. -/
def nthId (st : Nat) : Nat → Nat
  | 0 => (next_id st).1
  | k + 1 => nthId (next_id st).2 k

/-! ## Embedding of `_native.cpp` (the file under `src/`) -/

/-- The objects whose references `PyInit__native` manipulates. -/
inductive PyObj where
  | taintRangeType
  | sourceType
  | moduleObj
  deriving DecidableEq, Repr

/-- The static method table `TaintTrackingMethods` of `_native.cpp`
(lines 6–13): entries `"setup"` and `"new_pyobject_id"`, then the null
sentinel. -/
def TaintTrackingMethods : List String := ["setup", "new_pyobject_id"]

/-- A created CPython module: its registered methods and the attributes added
with `PyModule_AddObject`. -/
structure CModule where
  methods : List String
  attrs : List (String × PyObj)
  deriving DecidableEq, Repr

/-- Success/failure of each fallible CPython API call made by
`PyInit__native`, in program order. -/
structure InitEnv where
  readyTaintRange : Bool
  readySource : Bool
  createModule : Bool
  addTaintRange : Bool
  addSource : Bool
  deriving DecidableEq, Repr

/-- Outcome of `PyInit__native`: the returned module (or null), and the
`Py_INCREF` / `Py_DECREF` calls it performed, in order. -/
structure InitResult where
  result : Option CModule
  increfs : List PyObj
  decrefs : List PyObj
  deriving DecidableEq, Repr

/-- Embedding of `PyInit__native` (lines 22–50 of `_native.cpp`): ready the
`TaintRange` and `Source` types, create the module with the method table,
add both type objects, and on an add failure release the reference just
taken together with the module before returning null. -/
def PyInit_native (e : InitEnv) : InitResult :=
  if !e.readyTaintRange then ⟨none, [], []⟩
  else if !e.readySource then ⟨none, [], []⟩
  else if !e.createModule then ⟨none, [], []⟩
  else
    let m : CModule := { methods := TaintTrackingMethods, attrs := [] }
    if !e.addTaintRange then
      ⟨none, [.taintRangeType], [.taintRangeType, .moduleObj]⟩
    else
      let m := { m with attrs := m.attrs ++ [("TaintRange", PyObj.taintRangeType)] }
      if !e.addSource then
        ⟨none, [.taintRangeType, .sourceType], [.sourceType, .moduleObj]⟩
      else
        ⟨some { m with attrs := m.attrs ++ [("Source", PyObj.sourceType)] },
         [.taintRangeType, .sourceType], []⟩

/-! ## Proof-side views of clipping used for the slice/concat round trip -/

/-- Clip of a range to the window `[ws, we)` kept in absolute coordinates
(the composition of `TaintRange.clipped` with the shift back by `ws`). -/
def clipAbs (ws we : Nat) (r : TaintRange) : Option TaintRange :=
  if max r.start ws < min r.stop we then
    some { start := max r.start ws
           length := min r.stop we - max r.start ws
           source := r.source }
  else none

/-- Absolute-coordinate clips of a whole list of ranges. -/
def clipList (ws we : Nat) (R : List TaintRange) : List TaintRange :=
  R.filterMap (clipAbs ws we)

/-- Two ranges that never merge: if they refer to equal Sources then they
neither overlap nor touch.  This is the RangeSet invariant, pairwise. -/
def noInteract (a b : TaintRange) : Prop :=
  Source.equals a.source b.source = true → a.touches b = false

/-- A range whose interval is contained in another's, with the same Source
(the relation of a clip to the range it was clipped from). -/
def subClip (x r : TaintRange) : Prop :=
  r.start ≤ x.start ∧ x.stop ≤ r.stop ∧ x.source = r.source

/-! ## Order and interval helper lemmas -/

theorem TaintRange.start_le_stop (r : TaintRange) : r.start ≤ r.stop :=
  Nat.le_add_right r.start r.length

theorem TaintRange.keyLE_iff (a b : TaintRange) :
    a.keyLE b = true ↔
      (a.start < b.start ∨ (a.start = b.start ∧ a.length ≤ b.length)) := by
  simp [TaintRange.keyLE]

theorem TaintRange.keyLE_total (a b : TaintRange) (h : a.keyLE b = false) :
    b.keyLE a = true := by
  simp only [TaintRange.keyLE, decide_eq_false_iff_not, decide_eq_true_eq] at *
  omega

theorem TaintRange.keyLE_trans (a b c : TaintRange) (h1 : a.keyLE b = true)
    (h2 : b.keyLE c = true) : a.keyLE c = true := by
  simp only [TaintRange.keyLE, decide_eq_true_eq] at *
  omega

theorem TaintRange.keyLE_of_le_not_le (a b c : TaintRange)
    (h1 : c.keyLE a = true) (h2 : c.keyLE b = false) : b.keyLE a = true := by
  simp only [TaintRange.keyLE, decide_eq_false_iff_not, decide_eq_true_eq] at *
  omega

theorem TaintRange.keyLE_not_le_of_le (a b c : TaintRange)
    (h1 : c.keyLE a = false) (h2 : c.keyLE b = true) : b.keyLE a = false := by
  simp only [TaintRange.keyLE, decide_eq_false_iff_not, decide_eq_true_eq] at *
  omega

theorem Source.equals_refl (s : Source) : Source.equals s s = true := by
  simp [Source.equals]

theorem Source.equals_symm (a b : Source) (h : Source.equals a b = true) :
    Source.equals b a = true := by
  simp only [Source.equals, decide_eq_true_eq] at *
  exact ⟨h.1.symm, h.2.symm⟩

theorem Source.equals_trans (a b c : Source) (h1 : Source.equals a b = true)
    (h2 : Source.equals b c = true) : Source.equals a c = true := by
  simp only [Source.equals, decide_eq_true_eq] at *
  exact ⟨h1.1.trans h2.1, h1.2.trans h2.2⟩

theorem TaintRange.touches_of_covers (x r b : TaintRange)
    (hs : x.start ≤ r.start) (he : r.stop ≤ x.stop)
    (ht : r.touches b = true) : x.touches b = true := by
  simp only [TaintRange.touches, TaintRange.stop, decide_eq_true_eq] at *
  omega

theorem TaintRange.hull_source (a b : TaintRange) :
    (a.hull b).source = a.source := rfl

theorem TaintRange.hull_start (a b : TaintRange) :
    (a.hull b).start = min a.start b.start := rfl

theorem TaintRange.hull_stop (a b : TaintRange) :
    (a.hull b).stop = max a.stop b.stop := by
  have h : min a.start b.start ≤ max a.stop b.stop :=
    le_trans (min_le_left _ _) (le_trans a.start_le_stop (le_max_left _ _))
  simp only [TaintRange.stop, TaintRange.hull]
  omega

/-! ## Lemmas about the fold of `hull` over merged ranges -/

theorem foldl_hull_source (l : List TaintRange) (r : TaintRange) :
    (l.foldl TaintRange.hull r).source = r.source := by
  induction l generalizing r with
  | nil => rfl
  | cons x xs ih => simpa [List.foldl_cons] using ih (r.hull x)

theorem foldl_hull_start_le (l : List TaintRange) (r : TaintRange) :
    (l.foldl TaintRange.hull r).start ≤ r.start := by
  induction l generalizing r with
  | nil => exact le_refl _
  | cons x xs ih =>
    exact le_trans (ih (r.hull x)) (by rw [TaintRange.hull_start]; omega)

theorem foldl_hull_stop_ge (l : List TaintRange) (r : TaintRange) :
    r.stop ≤ (l.foldl TaintRange.hull r).stop := by
  induction l generalizing r with
  | nil => exact le_refl _
  | cons x xs ih =>
    refine le_trans ?_ (ih (r.hull x))
    rw [TaintRange.hull_stop]
    omega

theorem foldl_hull_mem (l : List TaintRange) (r x : TaintRange) (hx : x ∈ l) :
    (l.foldl TaintRange.hull r).start ≤ x.start ∧
      x.stop ≤ (l.foldl TaintRange.hull r).stop := by
  induction l generalizing r with
  | nil => cases hx
  | cons y ys ih =>
    rcases List.mem_cons.1 hx with h | h
    · subst h
      constructor
      · exact le_trans (foldl_hull_start_le ys (r.hull x))
          (by rw [TaintRange.hull_start]; omega)
      · refine le_trans ?_ (foldl_hull_stop_ge ys (r.hull x))
        rw [TaintRange.hull_stop]
        omega
    · exact ih (r.hull y) h

theorem foldl_hull_stop_le (l : List TaintRange) (r : TaintRange) (M : Nat)
    (hr : r.stop ≤ M) (hl : ∀ x ∈ l, x.stop ≤ M) :
    (l.foldl TaintRange.hull r).stop ≤ M := by
  induction l generalizing r with
  | nil => exact hr
  | cons x xs ih =>
    refine ih (r.hull x) ?_ (fun y hy => hl y (List.mem_cons_of_mem _ hy))
    rw [TaintRange.hull_stop]
    exact max_le hr (hl x (List.mem_cons_self _ _))

/-! ## Lemmas about sorted insertion -/

theorem mem_insertSorted (l : List TaintRange) (a x : TaintRange) :
    x ∈ RangeSet.insertSorted l a ↔ x ∈ l ∨ x = a := by
  induction l with
  | nil => simp [RangeSet.insertSorted]
  | cons y ys ih =>
    cases h : y.keyLE a <;> simp [RangeSet.insertSorted, h, ih] <;> tauto

theorem insertSorted_decomp (l : List TaintRange) (a : TaintRange) :
    ∃ l1 l2, l = l1 ++ l2 ∧ RangeSet.insertSorted l a = l1 ++ a :: l2 ∧
      (∀ x ∈ l1, x.keyLE a = true) := by
  induction l with
  | nil => exact ⟨[], [], rfl, rfl, by simp⟩
  | cons y ys ih =>
    by_cases h : y.keyLE a = true
    · obtain ⟨l1, l2, he, hi, hk⟩ := ih
      refine ⟨y :: l1, l2, by simp [he], ?_, ?_⟩
      · simp [RangeSet.insertSorted, h, hi]
      · intro x hx
        rcases List.mem_cons.1 hx with rfl | hx
        · exact h
        · exact hk x hx
    · refine ⟨[], y :: ys, rfl, ?_, by simp⟩
      simp [RangeSet.insertSorted, h]

theorem filter_insertSorted_neg (l : List TaintRange) (a : TaintRange)
    (q : TaintRange → Bool) (ha : q a = false) :
    (RangeSet.insertSorted l a).filter q = l.filter q := by
  induction l with
  | nil => simp [RangeSet.insertSorted, ha]
  | cons y ys ih =>
    by_cases h : y.keyLE a = true
    · simp only [RangeSet.insertSorted, h, if_true, List.filter_cons, ih]
    · simp [RangeSet.insertSorted, h, List.filter_cons, ha]

theorem filter_insertSorted_unique (l : List TaintRange) (a : TaintRange)
    (q : TaintRange → Bool) (ha : q a = true) (hl : ∀ x ∈ l, q x = false) :
    (RangeSet.insertSorted l a).filter q = [a] := by
  obtain ⟨l1, l2, he, hi, _⟩ := insertSorted_decomp l a
  rw [hi, List.filter_append, List.filter_cons, ha]
  have h1 : l1.filter q = [] := List.filter_eq_nil_iff.2 fun x hx =>
    by simp [hl x (he ▸ List.mem_append_left _ hx)]
  have h2 : l2.filter q = [] := List.filter_eq_nil_iff.2 fun x hx =>
    by simp [hl x (he ▸ List.mem_append_right _ hx)]
  simp [h1, h2]

theorem filter_insertSorted_drop (l : List TaintRange) (a : TaintRange)
    (q : TaintRange → Bool) (ha : q a = false) (hl : ∀ x ∈ l, q x = true) :
    (RangeSet.insertSorted l a).filter q = l := by
  rw [filter_insertSorted_neg l a q ha]
  exact List.filter_eq_self.2 hl

theorem insertSorted_append_last (l : List TaintRange) (r : TaintRange)
    (h : ∀ x ∈ l, x.keyLE r = true) : RangeSet.insertSorted l r = l ++ [r] := by
  induction l with
  | nil => rfl
  | cons y ys ih =>
    have hy : y.keyLE r = true := h y (List.mem_cons_self _ _)
    simp only [RangeSet.insertSorted, hy, if_true, List.cons_append]
    rw [ih fun x hx => h x (List.mem_cons_of_mem _ hx)]

theorem insertSorted_comm (l : List TaintRange) (a b : TaintRange)
    (hne : ¬(a.start = b.start ∧ a.length = b.length)) :
    RangeSet.insertSorted (RangeSet.insertSorted l a) b =
      RangeSet.insertSorted (RangeSet.insertSorted l b) a := by
  have hcase : (a.keyLE b = true ∧ b.keyLE a = false) ∨
      (a.keyLE b = false ∧ b.keyLE a = true) := by
    simp only [TaintRange.keyLE, decide_eq_true_eq, decide_eq_false_iff_not]
    omega
  induction l with
  | nil =>
    rcases hcase with ⟨h1, h2⟩ | ⟨h1, h2⟩ <;>
      simp [RangeSet.insertSorted, h1, h2]
  | cons x xs ih =>
    cases hxa : x.keyLE a <;> cases hxb : x.keyLE b
    · rcases hcase with ⟨h1, h2⟩ | ⟨h1, h2⟩ <;>
        simp [RangeSet.insertSorted, hxa, hxb, h1, h2]
    · have hab : a.keyLE b = true := TaintRange.keyLE_of_le_not_le b a x hxb hxa
      simp [RangeSet.insertSorted, hxa, hxb, hab]
    · have hba : b.keyLE a = true := TaintRange.keyLE_of_le_not_le a b x hxa hxb
      simp [RangeSet.insertSorted, hxa, hxb, hba]
    · simp [RangeSet.insertSorted, hxa, hxb, ih]

/-! ## Membership and bound lemmas for `insert` -/

theorem mem_insert_cases (s : RangeSet) (r x : TaintRange)
    (hx : x ∈ RangeSet.insert s r) :
    x ∈ s ∨ x = (s.filter (fun y => RangeSet.mergePred r y)).foldl TaintRange.hull r := by
  rcases (mem_insertSorted _ _ _).1 hx with h | h
  · exact Or.inl (List.mem_of_mem_filter h)
  · exact Or.inr h

theorem insert_stop_le (s : RangeSet) (r : TaintRange) (M : Nat)
    (hs : ∀ y ∈ s, y.stop ≤ M) (hr : r.stop ≤ M) :
    ∀ x ∈ RangeSet.insert s r, x.stop ≤ M := by
  intro x hx
  rcases mem_insert_cases s r x hx with h | h
  · exact hs x h
  · subst h
    exact foldl_hull_stop_le _ _ _ hr fun y hy => hs y (List.mem_of_mem_filter hy)

theorem insertAll_stop_le (rs : List TaintRange) (s : RangeSet) (M : Nat)
    (hs : ∀ y ∈ s, y.stop ≤ M) (hrs : ∀ y ∈ rs, y.stop ≤ M) :
    ∀ x ∈ RangeSet.insertAll s rs, x.stop ≤ M := by
  induction rs generalizing s with
  | nil => exact hs
  | cons z zs ih =>
    exact ih (RangeSet.insert s z)
      (insert_stop_le s z M hs (hrs z (List.mem_cons_self _ _)))
      (fun y hy => hrs y (List.mem_cons_of_mem _ hy))

theorem shiftedBy_stop (r : TaintRange) (d : Nat) :
    (r.shiftedBy d).stop = r.stop + d := by
  simp [TaintRange.shiftedBy, TaintRange.stop]
  omega

theorem merge_all_fold_stop_le (ps : List (RangeSet × Nat)) (acc : RangeSet) (M : Nat)
    (hacc : ∀ x ∈ acc, x.stop ≤ M)
    (hps : ∀ q ∈ ps, ∀ r ∈ q.1, r.stop + q.2 ≤ M) :
    ∀ x ∈ ps.foldl
      (fun acc p => RangeSet.insertAll acc (p.1.map (fun r => r.shiftedBy p.2))) acc,
      x.stop ≤ M := by
  induction ps generalizing acc with
  | nil => exact hacc
  | cons q qs ih =>
    refine ih _ ?_ (fun q' hq' => hps q' (List.mem_cons_of_mem _ hq'))
    refine insertAll_stop_le _ _ _ hacc ?_
    intro y hy
    obtain ⟨r, hr, rfl⟩ := List.mem_map.1 hy
    rw [shiftedBy_stop]
    exact hps q (List.mem_cons_self _ _) r hr

theorem zip_cumOffsets_bound (parts : List (RangeSet × Nat)) (base : Nat)
    (q : RangeSet × Nat)
    (hq : q ∈ (parts.map Prod.fst).zip ((cumOffsets (parts.map Prod.snd)).map (· + base))) :
    ∃ l, (q.1, l) ∈ parts ∧ q.2 + l ≤ base + (parts.map Prod.snd).sum := by
  induction parts generalizing base with
  | nil => cases hq
  | cons p ps ih =>
    simp only [List.map_cons, cumOffsets, List.zip_cons_cons, List.map_map] at hq
    rcases List.mem_cons.1 hq with h | h
    · refine ⟨p.2, by simp [h, Prod.ext_iff], ?_⟩
      have : q.2 = base := by
        have := congrArg Prod.snd h
        simpa using this
      simp only [this, List.map_cons, List.sum_cons]
      omega
    · have hcomp : ((· + base) ∘ (· + p.2)) = (· + (p.2 + base)) := by
        funext x
        simp
        omega
      rw [hcomp] at h
      obtain ⟨l, hl, hb⟩ := ih (p.2 + base) h
      refine ⟨l, List.mem_cons_of_mem _ hl, ?_⟩
      simp only [List.map_cons, List.sum_cons]
      omega

/-! ## Lemmas about non-interacting ranges and clips -/

theorem TaintRange.touches_comm (a b : TaintRange) : a.touches b = b.touches a := by
  unfold TaintRange.touches
  rw [decide_eq_decide]
  exact ⟨fun h => ⟨h.2, h.1⟩, fun h => ⟨h.2, h.1⟩⟩

theorem noInteract_symm (a b : TaintRange) (h : noInteract a b) : noInteract b a := by
  intro he
  rw [TaintRange.touches_comm]
  exact h (Source.equals_symm _ _ he)

theorem noInteract_mergePred (a b : TaintRange) (h : noInteract a b) :
    RangeSet.mergePred b a = false := by
  unfold RangeSet.mergePred
  cases he : Source.equals a.source b.source with
  | false => simp [he]
  | true => simp [he, h he]

theorem touches_mono (a b a' b' : TaintRange) (ha : subClip a' a) (hb : subClip b' b)
    (h : a'.touches b' = true) : a.touches b = true := by
  obtain ⟨ha1, ha2, -⟩ := ha
  obtain ⟨hb1, hb2, -⟩ := hb
  simp only [TaintRange.touches, decide_eq_true_eq] at h ⊢
  omega

theorem clip_mergePred_false (a b a' b' : TaintRange) (hni : noInteract a b)
    (ha : subClip a' a) (hb : subClip b' b) : RangeSet.mergePred b' a' = false := by
  unfold RangeSet.mergePred
  cases he : Source.equals a'.source b'.source with
  | false => simp [he]
  | true =>
    have he' : Source.equals a.source b.source = true := by
      rw [← ha.2.2, ← hb.2.2]
      exact he
    have ht : a'.touches b' = false := by
      cases hc : a'.touches b' with
      | false => rfl
      | true =>
        have := touches_mono a b a' b' ha hb hc
        rw [hni he'] at this
        cases this
    simp [he, ht]

theorem clipAbs_spec (ws we : Nat) (r x : TaintRange) (h : clipAbs ws we r = some x) :
    x.start = max r.start ws ∧ x.stop = min r.stop we ∧ x.source = r.source ∧
      max r.start ws < min r.stop we := by
  unfold clipAbs at h
  by_cases hc : max r.start ws < min r.stop we
  · rw [if_pos hc] at h
    cases h
    refine ⟨rfl, ?_, rfl, hc⟩
    simp only [TaintRange.stop] at hc ⊢
    omega
  · rw [if_neg hc] at h
    cases h

theorem clipAbs_sub (ws we : Nat) (r x : TaintRange) (h : clipAbs ws we r = some x) :
    subClip x r := by
  obtain ⟨h1, h2, h3, h4⟩ := clipAbs_spec ws we r x h
  exact ⟨by rw [h1]; exact le_max_left _ _, by rw [h2]; exact min_le_left _ _, h3⟩

theorem clipAbs_full (r : TaintRange) (N : Nat) (hpos : 0 < r.length)
    (hb : r.stop ≤ N) : clipAbs 0 N r = some r := by
  unfold clipAbs
  have h1 : max r.start 0 = r.start := Nat.max_zero r.start
  have h2 : min r.stop N = r.stop := min_eq_left hb
  have hc : max r.start 0 < min r.stop N := by
    rw [h1, h2]
    simp only [TaintRange.stop]
    omega
  rw [if_pos hc, h1, h2]
  have h3 : r.stop - r.start = r.length := by
    simp only [TaintRange.stop]
    omega
  rw [h3]

theorem clipAbs_collapse (p q : Nat) (r : TaintRange) (hpq : p ≤ q)
    (h : clipAbs p q r = none) : clipAbs 0 p r = clipAbs 0 q r := by
  have hc : ¬(max r.start p < min r.stop q) := by
    intro hc
    simp [clipAbs, hc] at h
  unfold clipAbs
  rw [Nat.max_zero]
  split_ifs with h1 h2 h2
  · have : min r.stop p = min r.stop q := by omega
    rw [this]
  · exfalso; omega
  · exfalso; omega
  · rfl

theorem slice_map_shift (R : List TaintRange) (w w' : Nat) :
    (RangeSet.slice R w w').map (fun r => r.shiftedBy w) = clipList w w' R := by
  unfold RangeSet.slice clipList
  rw [List.map_filterMap]
  apply List.filterMap_congr
  intro r _
  by_cases hc : max r.start w < min r.stop w'
  · have hw : max r.start w - w + w = max r.start w :=
      Nat.sub_add_cancel (le_max_right _ _)
    simp [TaintRange.clipped, clipAbs, hc, TaintRange.shiftedBy, hw]
  · simp [TaintRange.clipped, clipAbs, hc]

theorem clipList_zero (R : List TaintRange) : clipList 0 0 R = [] := by
  refine List.filterMap_eq_nil_iff.2 fun r _ => ?_
  have : ¬(max r.start 0 < min r.stop 0) := by omega
  simp [clipAbs, this]

theorem clipList_full (R : List TaintRange) (N : Nat)
    (h : ∀ r ∈ R, 0 < r.length ∧ r.stop ≤ N) : clipList 0 N R = R := by
  induction R with
  | nil => rfl
  | cons r rs ih =>
    unfold clipList
    rw [List.filterMap_cons,
      clipAbs_full r N (h r (List.mem_cons_self _ _)).1 (h r (List.mem_cons_self _ _)).2]
    rw [show (List.filterMap (clipAbs 0 N) rs) = clipList 0 N rs from rfl,
      ih fun x hx => h x (List.mem_cons_of_mem _ hx)]

theorem mem_clipList (ws we : Nat) (R : List TaintRange) (x : TaintRange)
    (hx : x ∈ clipList ws we R) : ∃ r ∈ R, clipAbs ws we r = some x :=
  List.mem_filterMap.1 hx

/-! ## Sorted-order preservation and no-merge normal forms -/

theorem insertSorted_front (l : List TaintRange) (a : TaintRange)
    (h : ∀ z ∈ l, z.keyLE a = false) : RangeSet.insertSorted l a = a :: l := by
  cases l with
  | nil => rfl
  | cons z t => simp [RangeSet.insertSorted, h z (List.mem_cons_self _ _)]

theorem sorted_insertSorted (l : List TaintRange) (a : TaintRange)
    (hs : List.Pairwise (fun x y => x.keyLE y = true) l) :
    List.Pairwise (fun x y => x.keyLE y = true) (RangeSet.insertSorted l a) := by
  induction l with
  | nil => simp [RangeSet.insertSorted]
  | cons x xs ih =>
    rw [List.pairwise_cons] at hs
    obtain ⟨hx, hxs⟩ := hs
    cases hk : x.keyLE a with
    | true =>
      simp only [RangeSet.insertSorted, hk, if_true]
      rw [List.pairwise_cons]
      refine ⟨fun z hz => ?_, ih hxs⟩
      rcases (mem_insertSorted _ _ _).1 hz with h | rfl
      · exact hx z h
      · exact hk
    | false =>
      simp only [RangeSet.insertSorted, hk]
      rw [if_neg (by simp)]
      rw [List.pairwise_cons]
      refine ⟨fun z hz => ?_, by rw [List.pairwise_cons]; exact ⟨hx, hxs⟩⟩
      rcases List.mem_cons.1 hz with rfl | h
      · exact TaintRange.keyLE_total _ _ hk
      · exact TaintRange.keyLE_trans _ _ _ (TaintRange.keyLE_total _ _ hk) (hx z h)

theorem sorted_insert (s : RangeSet) (r : TaintRange)
    (hs : List.Pairwise (fun x y => x.keyLE y = true) s) :
    List.Pairwise (fun x y => x.keyLE y = true) (RangeSet.insert s r) :=
  sorted_insertSorted _ _ (hs.filter _)

theorem sorted_insertAll (L : List TaintRange) :
    ∀ s : RangeSet, List.Pairwise (fun x y => x.keyLE y = true) s →
      List.Pairwise (fun x y => x.keyLE y = true) (RangeSet.insertAll s L) := by
  induction L with
  | nil => exact fun s hs => hs
  | cons z zs ih => exact fun s hs => ih (RangeSet.insert s z) (sorted_insert s z hs)

theorem insert_of_no_merge (s : RangeSet) (r : TaintRange)
    (h : ∀ x ∈ s, RangeSet.mergePred r x = false) :
    RangeSet.insert s r = RangeSet.insertSorted s r := by
  unfold RangeSet.insert
  have h1 : s.filter (fun x => !(RangeSet.mergePred r x)) = s :=
    List.filter_eq_self.2 fun x hx => by simp [h x hx]
  have h2 : s.filter (fun x => RangeSet.mergePred r x) = [] :=
    List.filter_eq_nil_iff.2 fun x hx => by simp [h x hx]
  rw [h1, h2]
  rfl

theorem insertAll_no_merge_eq (L : List TaintRange) :
    ∀ s : RangeSet, (∀ z ∈ L, ∀ w ∈ s, RangeSet.mergePred z w = false) →
      List.Pairwise (fun a b => RangeSet.mergePred b a = false) L →
      RangeSet.insertAll s L = L.foldl RangeSet.insertSorted s := by
  induction L with
  | nil => exact fun s _ _ => rfl
  | cons z zs ih =>
    intro s hs hp
    rw [List.pairwise_cons] at hp
    show RangeSet.insertAll (RangeSet.insert s z) zs = _
    rw [insert_of_no_merge s z (hs z (List.mem_cons_self _ _))]
    exact ih (RangeSet.insertSorted s z)
      (fun z' hz' w hw => by
        rcases (mem_insertSorted _ _ _).1 hw with h | rfl
        · exact hs z' (List.mem_cons_of_mem _ hz') w h
        · exact hp.1 z' hz')
      hp.2

theorem mem_foldl_insertSorted (L : List TaintRange) :
    ∀ (s : RangeSet) (x : TaintRange),
      x ∈ L.foldl RangeSet.insertSorted s ↔ x ∈ s ∨ x ∈ L := by
  induction L with
  | nil => simp
  | cons z zs ih =>
    intro s x
    rw [List.foldl_cons, ih, mem_insertSorted]
    simp only [List.mem_cons]
    tauto

theorem insertAll_append (s : RangeSet) (u v : List TaintRange) :
    RangeSet.insertAll s (u ++ v) = RangeSet.insertAll (RangeSet.insertAll s u) v :=
  List.foldl_append _ _ _ _

theorem insertAll_id (R : RangeSet)
    (h1 : List.Pairwise (fun x y => x.keyLE y = true) R)
    (h2 : List.Pairwise (fun a b => RangeSet.mergePred b a = false) R) :
    RangeSet.insertAll [] R = R := by
  induction R using List.reverseRecOn with
  | nil => rfl
  | append_singleton l r ih =>
    rw [insertAll_append]
    show RangeSet.insert (RangeSet.insertAll [] l) r = l ++ [r]
    rw [ih (List.Pairwise.sublist (List.sublist_append_left l [r]) h1)
      (List.Pairwise.sublist (List.sublist_append_left l [r]) h2)]
    rw [insert_of_no_merge l r
      (fun x hx => (List.pairwise_append.1 h2).2.2 x hx r (List.mem_singleton_self r))]
    exact insertSorted_append_last l r
      (fun x hx => (List.pairwise_append.1 h1).2.2 x hx r (List.mem_singleton_self r))

theorem filter_insertSorted_pos (l : List TaintRange) (a : TaintRange)
    (q : TaintRange → Bool)
    (hs : List.Pairwise (fun x y => x.keyLE y = true) l) (ha : q a = true) :
    (RangeSet.insertSorted l a).filter q =
      RangeSet.insertSorted (l.filter q) a := by
  induction l with
  | nil => simp [RangeSet.insertSorted, ha]
  | cons x xs ih =>
    rw [List.pairwise_cons] at hs
    obtain ⟨hx, hxs⟩ := hs
    cases hk : x.keyLE a with
    | true =>
      simp only [RangeSet.insertSorted, hk, if_true, List.filter_cons]
      cases hq : q x with
      | true =>
        simp only [if_true]
        rw [ih hxs]
        simp only [RangeSet.insertSorted, hk, if_true]
      | false =>
        simp only [Bool.false_eq_true, if_false]
        exact ih hxs
    | false =>
      simp only [RangeSet.insertSorted, hk]
      rw [if_neg (by simp), List.filter_cons_of_pos ha]
      have hall : ∀ z ∈ (x :: xs).filter q, z.keyLE a = false := by
        intro z hz
        rcases List.mem_cons.1 (List.mem_of_mem_filter hz) with rfl | h
        · exact hk
        · exact TaintRange.keyLE_not_le_of_le _ _ _ hk (hx z h)
      rw [insertSorted_front _ _ hall]

theorem TaintRange.eq_of_fields (a b : TaintRange) (h1 : a.start = b.start)
    (h2 : a.stop = b.stop) (h3 : a.source = b.source) : a = b := by
  cases a
  cases b
  simp only [TaintRange.stop] at h1 h2 h3 ⊢
  simp only [TaintRange.mk.injEq]
  refine ⟨h1, ?_, h3⟩
  omega

/-! ## Commuting independent insertions -/

theorem insert_insert_comm (S : RangeSet) (y z : TaintRange)
    (hS : List.Pairwise (fun a b => a.keyLE b = true) S)
    (hzS : ∀ w ∈ S, RangeSet.mergePred z w = false)
    (hzm : RangeSet.mergePred z
      ((S.filter (fun x => RangeSet.mergePred y x)).foldl TaintRange.hull y) = false)
    (hyz : RangeSet.mergePred y z = false)
    (hkey : ¬(z.start = ((S.filter (fun x => RangeSet.mergePred y x)).foldl
          TaintRange.hull y).start ∧
        z.length = ((S.filter (fun x => RangeSet.mergePred y x)).foldl
          TaintRange.hull y).length)) :
    RangeSet.insert (RangeSet.insert S y) z =
      RangeSet.insert (RangeSet.insert S z) y := by
  set m := (S.filter (fun x => RangeSet.mergePred y x)).foldl TaintRange.hull y with hm
  set A := S.filter (fun x => !(RangeSet.mergePred y x)) with hA
  have hL1 : RangeSet.insert S y = RangeSet.insertSorted A m := rfl
  have hAz : ∀ w ∈ RangeSet.insertSorted A m, RangeSet.mergePred z w = false := by
    intro w hw
    rcases (mem_insertSorted _ _ _).1 hw with h | rfl
    · exact hzS w (List.mem_of_mem_filter h)
    · exact hzm
  have hLHS : RangeSet.insert (RangeSet.insert S y) z =
      RangeSet.insertSorted (RangeSet.insertSorted A m) z := by
    rw [hL1, insert_of_no_merge _ _ hAz]
  have hR1 : RangeSet.insert S z = RangeSet.insertSorted S z :=
    insert_of_no_merge S z hzS
  have hfy : (RangeSet.insertSorted S z).filter (fun x => RangeSet.mergePred y x)
      = S.filter (fun x => RangeSet.mergePred y x) :=
    filter_insertSorted_neg S z _ hyz
  have hfny : (RangeSet.insertSorted S z).filter (fun x => !(RangeSet.mergePred y x))
      = RangeSet.insertSorted A z := by
    rw [hA]
    exact filter_insertSorted_pos S z _ hS (by simp [hyz])
  have hRHS : RangeSet.insert (RangeSet.insert S z) y =
      RangeSet.insertSorted (RangeSet.insertSorted A z) m := by
    rw [hR1]
    show RangeSet.insertSorted
      ((RangeSet.insertSorted S z).filter (fun x => !(RangeSet.mergePred y x)))
      (((RangeSet.insertSorted S z).filter (fun x => RangeSet.mergePred y x)).foldl
        TaintRange.hull y) = _
    rw [hfy, hfny, ← hm]
  rw [hLHS, hRHS]
  exact insertSorted_comm A m z (fun hc => hkey ⟨hc.1.symm, hc.2.symm⟩)

theorem insert_fuse (B : RangeSet) (x y : TaintRange)
    (hB : ∀ w ∈ B, RangeSet.mergePred y w = false)
    (hxy : RangeSet.mergePred y x = true) :
    RangeSet.insert (RangeSet.insertSorted B x) y =
      RangeSet.insertSorted B (TaintRange.hull y x) := by
  unfold RangeSet.insert
  rw [filter_insertSorted_unique B x _ hxy hB]
  rw [filter_insertSorted_drop B x _ (by simp [hxy]) (fun w hw => by simp [hB w hw])]
  rfl

theorem insertAll_insert_comm (L : List TaintRange) :
    ∀ (S : RangeSet) (y m : TaintRange),
      List.Pairwise (fun a b => a.keyLE b = true) S →
      (S.filter (fun x => RangeSet.mergePred y x)).foldl TaintRange.hull y = m →
      (∀ z ∈ L, (∀ w ∈ S, RangeSet.mergePred z w = false) ∧
        RangeSet.mergePred z m = false ∧ RangeSet.mergePred y z = false ∧
        ¬(z.start = m.start ∧ z.length = m.length)) →
      List.Pairwise (fun a b => RangeSet.mergePred b a = false) L →
      RangeSet.insertAll (RangeSet.insert S y) L =
        RangeSet.insert (RangeSet.insertAll S L) y := by
  induction L with
  | nil => intro S y m _ _ _ _; rfl
  | cons z zs ih =>
    intro S y m hS hm hcond hpair
    obtain ⟨hzS, hzm, hyz, hzkey⟩ := hcond z (List.mem_cons_self _ _)
    rw [List.pairwise_cons] at hpair
    show RangeSet.insertAll (RangeSet.insert (RangeSet.insert S y) z) zs = _
    rw [insert_insert_comm S y z hS hzS (by rw [hm]; exact hzm) hyz
      (by rw [hm]; exact hzkey)]
    have hSz : RangeSet.insert S z = RangeSet.insertSorted S z :=
      insert_of_no_merge S z hzS
    refine ih (RangeSet.insert S z) y m ?_ ?_ ?_ hpair.2
    · rw [hSz]
      exact sorted_insertSorted _ _ hS
    · rw [hSz, filter_insertSorted_neg S z _ hyz, hm]
    · intro z' hz'
      obtain ⟨h1, h2, h3, h4⟩ := hcond z' (List.mem_cons_of_mem _ hz')
      refine ⟨?_, h2, h3, h4⟩
      intro w hw
      rw [hSz] at hw
      rcases (mem_insertSorted _ _ _).1 hw with h | rfl
      · exact h1 w h
      · exact hpair.1 z' hz'

theorem insertAll_cons (s : RangeSet) (a : TaintRange) (t : List TaintRange) :
    RangeSet.insertAll s (a :: t) = RangeSet.insertAll (RangeSet.insert s a) t := rfl

/-- Processing one slice window on top of the accumulated left-prefix clips
reconstructs the clips up to the window's right edge.  `R1` is the already
fully-processed prefix of the range list (clipped to `q`), `R2` the rest
(so far only clipped to `p`). -/
theorem inner_window (R2 : List TaintRange) :
    ∀ (R1 : List TaintRange) (p q : Nat), p ≤ q →
      List.Pairwise noInteract (R1 ++ R2) →
      RangeSet.insertAll
        (RangeSet.insertAll [] (clipList 0 q R1 ++ clipList 0 p R2))
        (clipList p q R2) =
      RangeSet.insertAll [] (clipList 0 q R1 ++ clipList 0 q R2) := by
  induction R2 with
  | nil => intro R1 p q _ _; rfl
  | cons r R2' ih =>
    intro R1 p q hpq hsep
    rw [List.pairwise_append] at hsep
    obtain ⟨hsepR1, hsepr2, hsep12⟩ := hsep
    rw [List.pairwise_cons] at hsepr2
    obtain ⟨hsr, hsepR2'⟩ := hsepr2
    have hsep' : List.Pairwise noInteract ((R1 ++ [r]) ++ R2') := by
      rw [List.pairwise_append]
      refine ⟨?_, hsepR2', ?_⟩
      · rw [List.pairwise_append]
        refine ⟨hsepR1, List.pairwise_singleton _ _, ?_⟩
        intro a ha b hb
        rw [List.mem_singleton] at hb
        rw [hb]
        exact hsep12 a ha r (List.mem_cons_self _ _)
      · intro a ha b hb
        rcases List.mem_append.1 ha with h | h
        · exact hsep12 a h b (List.mem_cons_of_mem _ hb)
        · rw [List.mem_singleton] at h
          rw [h]
          exact hsr b hb
    have eL1r : clipList 0 q (R1 ++ [r]) = clipList 0 q R1 ++ clipList 0 q [r] := by
      unfold clipList
      rw [List.filterMap_append]
    cases hy : clipAbs p q r with
    | none =>
      have hcol := clipAbs_collapse p q r hpq hy
      have e1 : clipList p q (r :: R2') = clipList p q R2' := by
        unfold clipList
        rw [List.filterMap_cons, hy]
      have e2 : clipList 0 p (r :: R2') = clipList 0 q [r] ++ clipList 0 p R2' := by
        unfold clipList
        rw [List.filterMap_cons, hcol]
        cases hc : clipAbs 0 q r <;> simp [List.filterMap_cons, hc]
      have eback : clipList 0 q [r] ++ clipList 0 q R2' = clipList 0 q (r :: R2') := by
        unfold clipList
        rw [← List.filterMap_append]
        rfl
      rw [e1, e2, ← List.append_assoc, ← eL1r]
      rw [ih (R1 ++ [r]) p q hpq hsep']
      congr 1
      rw [eL1r, List.append_assoc, eback]
    | some y =>
      obtain ⟨hy1, hy2, hy3, hy4⟩ := clipAbs_spec p q r y hy
      set x' : TaintRange :=
        ⟨r.start, min r.stop q - r.start, r.source⟩ with hx'def
      have hx' : clipAbs 0 q r = some x' := by
        unfold clipAbs
        have hc : max r.start 0 < min r.stop q := by
          rw [Nat.max_zero]
          omega
        rw [if_pos hc, Nat.max_zero]
      obtain ⟨hx1, hx2, hx3, hx4⟩ := clipAbs_spec 0 q r x' hx'
      rw [Nat.max_zero] at hx1 hx4
      have hsubx' : subClip x' r := clipAbs_sub 0 q r x' hx'
      have hsuby : subClip y r := clipAbs_sub p q r y hy
      have hmemL1 : ∀ w ∈ clipList 0 q R1, ∃ ri ∈ R1, subClip w ri := by
        intro w hw
        obtain ⟨ri, hri, hc⟩ := mem_clipList _ _ _ _ hw
        exact ⟨ri, hri, clipAbs_sub _ _ _ _ hc⟩
      have hmemL2 : ∀ z ∈ clipList 0 p R2',
          ∃ rj ∈ R2', subClip z rj ∧ z.stop ≤ p := by
        intro z hz
        obtain ⟨rj, hrj, hc⟩ := mem_clipList _ _ _ _ hz
        obtain ⟨hz1, hz2, hz3, hz4⟩ := clipAbs_spec _ _ _ _ hc
        exact ⟨rj, hrj, clipAbs_sub _ _ _ _ hc, by rw [hz2]; exact min_le_right _ _⟩
      have hrfree : ∀ u, subClip u r → ∀ w ∈ clipList 0 q R1,
          RangeSet.mergePred u w = false := by
        intro u hu w hw
        obtain ⟨ri, hri, hsw⟩ := hmemL1 w hw
        exact clip_mergePred_false ri r w u
          (hsep12 ri hri r (List.mem_cons_self _ _)) hsw hu
      have hL1pair : List.Pairwise (fun a b => RangeSet.mergePred b a = false)
          (clipList 0 q R1) := by
        unfold clipList
        rw [List.pairwise_filterMap]
        refine List.Pairwise.imp ?_ hsepR1
        intro a b hni u hu u' hu'
        exact clip_mergePred_false a b u u' hni
          (clipAbs_sub _ _ _ _ (Option.mem_def.1 hu))
          (clipAbs_sub _ _ _ _ (Option.mem_def.1 hu'))
      have hS1eq : RangeSet.insertAll [] (clipList 0 q R1)
          = (clipList 0 q R1).foldl RangeSet.insertSorted [] :=
        insertAll_no_merge_eq _ []
          (fun z _ w hw => absurd hw (List.not_mem_nil w)) hL1pair
      have hS1mem : ∀ w, w ∈ RangeSet.insertAll [] (clipList 0 q R1) ↔
          w ∈ clipList 0 q R1 := by
        intro w
        rw [hS1eq, mem_foldl_insertSorted]
        simp
      have hS1sorted : List.Pairwise (fun a b => a.keyLE b = true)
          (RangeSet.insertAll [] (clipList 0 q R1)) :=
        sorted_insertAll (clipList 0 q R1) [] (by simp)
      have hins_clip : ∀ u, subClip u r →
          RangeSet.insert (RangeSet.insertAll [] (clipList 0 q R1)) u
            = RangeSet.insertSorted (RangeSet.insertAll [] (clipList 0 q R1)) u := by
        intro u hu
        refine insert_of_no_merge _ _ ?_
        intro w hw
        exact hrfree u hu w ((hS1mem w).1 hw)
      have hzcommon : ∀ z ∈ clipList 0 p R2',
          (∀ w ∈ RangeSet.insertAll [] (clipList 0 q R1),
            RangeSet.mergePred z w = false) ∧
          (∀ u, subClip u r →
            RangeSet.mergePred z u = false ∧ RangeSet.mergePred u z = false) ∧
          ¬(z.start = x'.start ∧ z.length = x'.length) := by
        intro z hz
        obtain ⟨rj, hrj, hsz, hzp⟩ := hmemL2 z hz
        refine ⟨?_, ?_, ?_⟩
        · intro w hw
          obtain ⟨ri, hri, hsw⟩ := hmemL1 w ((hS1mem w).1 hw)
          exact clip_mergePred_false ri rj w z
            (hsep12 ri hri rj (List.mem_cons_of_mem _ hrj)) hsw hsz
        · intro u hu
          exact ⟨clip_mergePred_false r rj u z (hsr rj hrj) hu hsz,
            clip_mergePred_false rj r z u
              (noInteract_symm _ _ (hsr rj hrj)) hsz hu⟩
        · rintro ⟨hzs, hzl⟩
          have hzstop : z.stop = x'.stop := by
            simp only [TaintRange.stop, hzs, hzl]
          rw [hx2] at hzstop
          omega
      have hpairL2 : List.Pairwise (fun a b => RangeSet.mergePred b a = false)
          (clipList 0 p R2') := by
        unfold clipList
        rw [List.pairwise_filterMap]
        refine List.Pairwise.imp ?_ hsepR2'
        intro a b hni u hu u' hu'
        exact clip_mergePred_false a b u u' hni
          (clipAbs_sub _ _ _ _ (Option.mem_def.1 hu))
          (clipAbs_sub _ _ _ _ (Option.mem_def.1 hu'))
      have hfuseB : ∀ w ∈ RangeSet.insertAll [] (clipList 0 q R1),
          RangeSet.mergePred y w = false :=
        fun w hw => hrfree y hsuby w ((hS1mem w).1 hw)
      have ew : clipList p q (r :: R2') = y :: clipList p q R2' := by
        unfold clipList
        rw [List.filterMap_cons, hy]
      have eqr : clipList 0 q (R1 ++ [r]) = clipList 0 q R1 ++ [x'] := by
        rw [eL1r]
        congr 1
        unfold clipList
        rw [List.filterMap_cons, hx']
        rfl
      have ecr : clipList 0 q (r :: R2') = x' :: clipList 0 q R2' := by
        unfold clipList
        rw [List.filterMap_cons, hx']
      cases hx : clipAbs 0 p r with
      | some x =>
        obtain ⟨hxs1, hxs2, hxs3, hxs4⟩ := clipAbs_spec 0 p r x hx
        rw [Nat.max_zero] at hxs1 hxs4
        have hsubx : subClip x r := clipAbs_sub _ _ _ _ hx
        have hmergeyx : RangeSet.mergePred y x = true := by
          unfold RangeSet.mergePred
          have he : Source.equals x.source y.source = true := by
            rw [hxs3, hy3]
            exact Source.equals_refl _
          have ht : x.touches y = true := by
            simp only [TaintRange.touches, decide_eq_true_eq]
            rw [hxs1, hxs2, hy1, hy2]
            omega
          rw [he, ht]
          rfl
        have hhullyx : TaintRange.hull y x = x' := by
          apply TaintRange.eq_of_fields
          · rw [TaintRange.hull_start, hy1, hxs1, hx1]
            omega
          · rw [TaintRange.hull_stop, hy2, hxs2, hx2]
            omega
          · rw [TaintRange.hull_source, hy3, hx3]
        have ep : clipList 0 p (r :: R2') = x :: clipList 0 p R2' := by
          unfold clipList
          rw [List.filterMap_cons, hx]
        have esplit : RangeSet.insertAll []
              (clipList 0 q R1 ++ x :: clipList 0 p R2')
            = RangeSet.insertAll
                (RangeSet.insertSorted (RangeSet.insertAll [] (clipList 0 q R1)) x)
                (clipList 0 p R2') := by
          rw [show clipList 0 q R1 ++ x :: clipList 0 p R2'
              = (clipList 0 q R1 ++ [x]) ++ clipList 0 p R2' by simp]
          rw [insertAll_append, insertAll_append]
          rw [show RangeSet.insertAll (RangeSet.insertAll [] (clipList 0 q R1)) [x]
              = RangeSet.insert (RangeSet.insertAll [] (clipList 0 q R1)) x from rfl]
          rw [hins_clip x hsubx]
        have hmeq : ((RangeSet.insertSorted
              (RangeSet.insertAll [] (clipList 0 q R1)) x).filter
              (fun w => RangeSet.mergePred y w)).foldl TaintRange.hull y = x' := by
          rw [filter_insertSorted_unique _ _ _ hmergeyx
            (fun w hw => hrfree y hsuby w ((hS1mem w).1 hw))]
          show TaintRange.hull y x = x'
          exact hhullyx
        have hconds : ∀ z ∈ clipList 0 p R2',
            (∀ w ∈ RangeSet.insertSorted
                (RangeSet.insertAll [] (clipList 0 q R1)) x,
              RangeSet.mergePred z w = false) ∧
            RangeSet.mergePred z x' = false ∧ RangeSet.mergePred y z = false ∧
            ¬(z.start = x'.start ∧ z.length = x'.length) := by
          intro z hz
          obtain ⟨hzS1, hzr, hzkey⟩ := hzcommon z hz
          refine ⟨?_, (hzr x' hsubx').1, (hzr y hsuby).2, hzkey⟩
          intro w hw
          rcases (mem_insertSorted _ _ _).1 hw with h | rfl
          · exact hzS1 w h
          · exact (hzr w hsubx).1
        have hcs := insertAll_insert_comm (clipList 0 p R2')
          (RangeSet.insertSorted (RangeSet.insertAll [] (clipList 0 q R1)) x) y x'
          (sorted_insertSorted _ _ hS1sorted) hmeq hconds hpairL2
        have hcore : RangeSet.insert (RangeSet.insertAll []
              (clipList 0 q R1 ++ x :: clipList 0 p R2')) y
            = RangeSet.insertAll []
                (clipList 0 q (R1 ++ [r]) ++ clipList 0 p R2') := by
          rw [esplit, ← hcs]
          rw [insert_fuse _ _ _ hfuseB hmergeyx, hhullyx]
          rw [← hins_clip x' hsubx']
          rw [show RangeSet.insert (RangeSet.insertAll [] (clipList 0 q R1)) x'
              = RangeSet.insertAll (RangeSet.insertAll [] (clipList 0 q R1)) [x']
              from rfl]
          rw [← insertAll_append, ← insertAll_append]
          congr 1
          rw [eqr]
          simp
        rw [ew, ep, insertAll_cons, hcore]
        rw [ih (R1 ++ [r]) p q hpq hsep']
        congr 1
        rw [eqr, List.append_assoc, ecr]
        rfl
      | none =>
        have hnc : ¬(max r.start 0 < min r.stop p) := by
          intro hc
          unfold clipAbs at hx
          rw [if_pos hc] at hx
          exact Option.noConfusion hx
        rw [Nat.max_zero] at hnc
        have hyx' : y = x' := by
          apply TaintRange.eq_of_fields
          · rw [hy1, hx1]
            omega
          · rw [hy2, hx2]
          · rw [hy3, hx3]
        have ep : clipList 0 p (r :: R2') = clipList 0 p R2' := by
          unfold clipList
          rw [List.filterMap_cons, hx]
        have hmeq : ((RangeSet.insertAll [] (clipList 0 q R1)).filter
            (fun w => RangeSet.mergePred y w)).foldl TaintRange.hull y = x' := by
          rw [List.filter_eq_nil_iff.2
            (fun w hw => by simp [hrfree y hsuby w ((hS1mem w).1 hw)])]
          show y = x'
          exact hyx'
        have hconds : ∀ z ∈ clipList 0 p R2',
            (∀ w ∈ RangeSet.insertAll [] (clipList 0 q R1),
              RangeSet.mergePred z w = false) ∧
            RangeSet.mergePred z x' = false ∧ RangeSet.mergePred y z = false ∧
            ¬(z.start = x'.start ∧ z.length = x'.length) := by
          intro z hz
          obtain ⟨hzS1, hzr, hzkey⟩ := hzcommon z hz
          exact ⟨hzS1, (hzr x' hsubx').1, (hzr y hsuby).2, hzkey⟩
        have hcs := insertAll_insert_comm (clipList 0 p R2')
          (RangeSet.insertAll [] (clipList 0 q R1)) y x'
          hS1sorted hmeq hconds hpairL2
        have hcore : RangeSet.insert (RangeSet.insertAll []
              (clipList 0 q R1 ++ clipList 0 p R2')) y
            = RangeSet.insertAll []
                (clipList 0 q (R1 ++ [r]) ++ clipList 0 p R2') := by
          rw [insertAll_append, ← hcs]
          rw [hins_clip y hsuby, hyx']
          rw [← hins_clip x' hsubx']
          rw [show RangeSet.insert (RangeSet.insertAll [] (clipList 0 q R1)) x'
              = RangeSet.insertAll (RangeSet.insertAll [] (clipList 0 q R1)) [x']
              from rfl]
          rw [← insertAll_append, ← insertAll_append]
          congr 1
          rw [eqr]
          simp
        rw [ew, ep, insertAll_cons, hcore]
        rw [ih (R1 ++ [r]) p q hpq hsep']
        congr 1
        rw [eqr, List.append_assoc, ecr]
        rfl

/-! ## Claim theorems -/

/-- C2: for operand RangeSets whose ranges lie within their declared operand
lengths, every range produced by `propagate_concat` satisfies
`start + length <= l1 + ... + ln`. -/
theorem C2_concat_length_invariant (parts : List (RangeSet × Nat))
    (h : ∀ p ∈ parts, ∀ r ∈ p.1, r.start + r.length ≤ p.2) :
    ∀ x ∈ propagate_concat parts,
      x.start + x.length ≤ (parts.map Prod.snd).sum := by
  intro x hx
  simp only [propagate_concat, RangeSet.merge_all] at hx
  have hzip : ∀ q ∈ (parts.map Prod.fst).zip (cumOffsets (parts.map Prod.snd)),
      ∀ r ∈ q.1, r.stop + q.2 ≤ (parts.map Prod.snd).sum := by
    intro q hq r hr
    have hq' : q ∈ (parts.map Prod.fst).zip
        ((cumOffsets (parts.map Prod.snd)).map (· + 0)) := by
      simpa using hq
    obtain ⟨l, hl, hb⟩ := zip_cumOffsets_bound parts 0 q hq'
    have hrl : r.stop ≤ l := h (q.1, l) hl r hr
    simp only [TaintRange.stop] at *
    omega
  exact merge_all_fold_stop_le _ [] _ (by simp) hzip x hx

/-- C2 witness: a concrete concatenation of a fully tainted length-5 operand
with an untainted length-3 operand. -/
theorem C2_witness :
    (⟨0, 5, ⟨"s", 0, none⟩⟩ : TaintRange).start +
        (⟨0, 5, ⟨"s", 0, none⟩⟩ : TaintRange).length ≤
      (([([⟨0, 5, ⟨"s", 0, none⟩⟩], 5), ([], 3)] :
          List (RangeSet × Nat)).map Prod.snd).sum :=
  C2_concat_length_invariant [([⟨0, 5, ⟨"s", 0, none⟩⟩], 5), ([], 3)]
    (by decide) ⟨0, 5, ⟨"s", 0, none⟩⟩ (by decide)

/-- C4: inserting the same TaintRange twice yields the same RangeSet as
inserting it once. -/
theorem C4_insert_idempotent (s : RangeSet) (r : TaintRange) :
    RangeSet.insert (RangeSet.insert s r) r = RangeSet.insert s r := by
  set t := s.filter (fun x => RangeSet.mergePred r x) with ht
  set A := s.filter (fun x => !(RangeSet.mergePred r x)) with hA
  set m := t.foldl TaintRange.hull r with hm
  have hsrc : m.source = r.source := foldl_hull_source _ _
  have hstart : m.start ≤ r.start := foldl_hull_start_le _ _
  have hstop : r.stop ≤ m.stop := foldl_hull_stop_ge _ _
  have hPm : RangeSet.mergePred r m = true := by
    simp only [RangeSet.mergePred, Bool.and_eq_true]
    refine ⟨by rw [hsrc]; exact Source.equals_refl _, ?_⟩
    simp only [TaintRange.touches, decide_eq_true_eq]
    have := r.start_le_stop
    omega
  have hAfalse : ∀ x ∈ A, RangeSet.mergePred r x = false := by
    intro x hx
    have := (List.mem_filter.1 hx).2
    simpa using this
  show RangeSet.insert (RangeSet.insertSorted A m) r = RangeSet.insertSorted A m
  simp only [RangeSet.insert]
  rw [filter_insertSorted_unique A m _ hPm hAfalse]
  rw [filter_insertSorted_drop A m _ (by simp [hPm])
    (fun x hx => by simp [hAfalse x hx])]
  show RangeSet.insertSorted A (TaintRange.hull r m) = RangeSet.insertSorted A m
  have hhull : TaintRange.hull r m = m := by
    unfold TaintRange.hull
    have h1 : min r.start m.start = m.start := by omega
    have h2 : max r.stop m.stop = m.stop := by omega
    rw [h1, h2, ← hsrc]
    have h3 : m.stop - m.start = m.length := by
      simp [TaintRange.stop]
    rw [h3]
  rw [hhull]

/-- C1 counterexample: the claim as stated fails on the model.  With the
pre-existing set `[[0,10) from Source b]`, inserting the same-Source
touching ranges `[0,2)` and `[1,2)` of Source `a` leaves `two` ranges
covering the union `[0,3)` (the merged `a`-range and the wide `b`-range),
not exactly one; and with the pre-existing set `[[0,5) from Source a]`,
inserting `[1,2)` of `a` and the overlapping `[1,2)` of `b` does not retain
the first inserted range itself, which was absorbed into `[0,5)`. -/
theorem C1_counterexample :
    (Source.equals ⟨"a", 0, none⟩ ⟨"a", 0, none⟩ = true ∧
     (⟨0, 2, ⟨"a", 0, none⟩⟩ : TaintRange).touches ⟨1, 2, ⟨"a", 0, none⟩⟩ = true ∧
     (RangeSet.insert
        (RangeSet.insert [⟨0, 10, ⟨"b", 1, none⟩⟩] ⟨0, 2, ⟨"a", 0, none⟩⟩)
        ⟨1, 2, ⟨"a", 0, none⟩⟩).countP
          (fun x => decide (x.start ≤ 0 ∧ 3 ≤ x.stop)) = 2) ∧
    (Source.equals ⟨"a", 0, none⟩ ⟨"b", 1, none⟩ = false ∧
     (⟨1, 1, ⟨"a", 0, none⟩⟩ : TaintRange).overlaps ⟨1, 1, ⟨"b", 1, none⟩⟩ = true ∧
     (⟨1, 1, ⟨"a", 0, none⟩⟩ : TaintRange) ∉
       RangeSet.insert
         (RangeSet.insert [⟨0, 5, ⟨"a", 0, none⟩⟩] ⟨1, 1, ⟨"a", 0, none⟩⟩)
         ⟨1, 1, ⟨"b", 1, none⟩⟩) := by
  decide

/-- C1 amended: inserting two touching ranges of one Source into any
RangeSet leaves exactly one range `of that Source` covering their union;
inserting two overlapping ranges of different Sources leaves two distinct
ranges, one per Source, each covering the corresponding inserted interval
(each may have absorbed same-Source content already present in the set). -/
theorem C1_amended_same_source_merge (S : RangeSet) (r1 r2 : TaintRange) :
    (Source.equals r1.source r2.source = true → r1.touches r2 = true →
      ∃! x, x ∈ RangeSet.insert (RangeSet.insert S r1) r2 ∧
        Source.equals x.source r1.source = true ∧
        x.start ≤ min r1.start r2.start ∧ max r1.stop r2.stop ≤ x.stop) ∧
    (Source.equals r1.source r2.source = false → r1.overlaps r2 = true →
      ∃ x1 x2, x1 ∈ RangeSet.insert (RangeSet.insert S r1) r2 ∧
        x2 ∈ RangeSet.insert (RangeSet.insert S r1) r2 ∧ x1 ≠ x2 ∧
        Source.equals x1.source r1.source = true ∧
        x1.start ≤ r1.start ∧ r1.stop ≤ x1.stop ∧
        Source.equals x2.source r2.source = true ∧
        x2.start ≤ r2.start ∧ r2.stop ≤ x2.stop) := by
  set T1 := RangeSet.insert S r1 with hT1
  set m1 := (S.filter (fun x => RangeSet.mergePred r1 x)).foldl TaintRange.hull r1
    with hm1def
  have hm1mem : m1 ∈ T1 := (mem_insertSorted _ _ _).2 (Or.inr rfl)
  have hm1src : m1.source = r1.source := foldl_hull_source _ _
  have hm1start : m1.start ≤ r1.start := foldl_hull_start_le _ _
  have hm1stop : r1.stop ≤ m1.stop := foldl_hull_stop_ge _ _
  set m2 := (T1.filter (fun x => RangeSet.mergePred r2 x)).foldl TaintRange.hull r2
    with hm2def
  have hm2mem : m2 ∈ RangeSet.insert T1 r2 := (mem_insertSorted _ _ _).2 (Or.inr rfl)
  have hm2src : m2.source = r2.source := foldl_hull_source _ _
  have hm2start : m2.start ≤ r2.start := foldl_hull_start_le _ _
  have hm2stop : r2.stop ≤ m2.stop := foldl_hull_stop_ge _ _
  constructor
  · intro hsame htouch
    have hp2m1 : RangeSet.mergePred r2 m1 = true := by
      simp only [RangeSet.mergePred, Bool.and_eq_true]
      exact ⟨by rw [hm1src]; exact hsame,
        TaintRange.touches_of_covers m1 r1 r2 hm1start hm1stop htouch⟩
    have hm1f : m1 ∈ T1.filter (fun x => RangeSet.mergePred r2 x) :=
      List.mem_filter.2 ⟨hm1mem, hp2m1⟩
    have hc := foldl_hull_mem (T1.filter (fun x => RangeSet.mergePred r2 x)) r2 m1 hm1f
    rw [← hm2def] at hc
    obtain ⟨hc1, hc2⟩ := hc
    refine ⟨m2, ⟨hm2mem, by rw [hm2src]; exact Source.equals_symm _ _ hsame, ?_, ?_⟩, ?_⟩
    · omega
    · omega
    · rintro y ⟨hymem, hysrc, hycov1, hycov2⟩
      rcases (mem_insertSorted _ _ _).1 hymem with hyf | rfl
      · exfalso
        have hyp2 : RangeSet.mergePred r2 y = false := by
          have := (List.mem_filter.1 hyf).2
          simpa using this
        have : RangeSet.mergePred r2 y = true := by
          simp only [RangeSet.mergePred, Bool.and_eq_true]
          refine ⟨Source.equals_trans _ _ _ hysrc hsame, ?_⟩
          simp only [TaintRange.touches, decide_eq_true_eq]
          have h1 := r2.start_le_stop
          omega
        rw [this] at hyp2
        cases hyp2
      · rfl
  · intro hdiff _hov
    have hp2m1 : RangeSet.mergePred r2 m1 = false := by
      simp only [RangeSet.mergePred]
      have : Source.equals m1.source r2.source = false := by rw [hm1src]; exact hdiff
      simp [this]
    refine ⟨m1, m2, ?_, hm2mem, ?_, by rw [hm1src]; exact Source.equals_refl _,
      hm1start, hm1stop, by rw [hm2src]; exact Source.equals_refl _,
      hm2start, hm2stop⟩
    · exact (mem_insertSorted _ _ _).2
        (Or.inl (List.mem_filter.2 ⟨hm1mem, by simp [hp2m1]⟩))
    · intro heq
      have hse : r1.source = r2.source := by rw [← hm1src, heq, hm2src]
      rw [hse] at hdiff
      rw [Source.equals_refl] at hdiff
      cases hdiff

/-- C1 amended witness: both branches at concrete inputs — same-Source
touching ranges `[0,2)`, `[1,2)` of `a` inserted into `[[5,1) of b]`, and
different-Source overlapping ranges `[0,2)` of `a`, `[1,2)` of `b` inserted
into the empty set. -/
theorem C1_witness :
    (∃! x, x ∈ RangeSet.insert
        (RangeSet.insert [⟨5, 1, ⟨"b", 1, none⟩⟩] ⟨0, 2, ⟨"a", 0, none⟩⟩)
        ⟨1, 2, ⟨"a", 0, none⟩⟩ ∧
      Source.equals x.source ⟨"a", 0, none⟩ = true ∧
      x.start ≤ min 0 1 ∧ max 2 3 ≤ x.stop) ∧
    (∃ x1 x2, x1 ∈ RangeSet.insert (RangeSet.insert [] ⟨0, 2, ⟨"a", 0, none⟩⟩)
        ⟨1, 2, ⟨"b", 1, none⟩⟩ ∧
      x2 ∈ RangeSet.insert (RangeSet.insert [] ⟨0, 2, ⟨"a", 0, none⟩⟩)
        ⟨1, 2, ⟨"b", 1, none⟩⟩ ∧ x1 ≠ x2 ∧
      Source.equals x1.source ⟨"a", 0, none⟩ = true ∧
      x1.start ≤ 0 ∧ 2 ≤ x1.stop ∧
      Source.equals x2.source ⟨"b", 1, none⟩ = true ∧
      x2.start ≤ 1 ∧ 3 ≤ x2.stop) :=
  ⟨(C1_amended_same_source_merge [⟨5, 1, ⟨"b", 1, none⟩⟩]
      ⟨0, 2, ⟨"a", 0, none⟩⟩ ⟨1, 2, ⟨"a", 0, none⟩⟩).1 (by decide) (by decide),
   (C1_amended_same_source_merge [] ⟨0, 2, ⟨"a", 0, none⟩⟩
      ⟨1, 2, ⟨"b", 1, none⟩⟩).2 (by decide) (by decide)⟩

/-- C3: for a RangeSet `R` over a value of length `N` satisfying the
data-model invariants (sorted order, no two same-Source ranges overlapping
or touching, positive lengths, ranges within `[0, N)`), concatenating the
three slices `[0,a)`, `[a,b)`, `[b,N)` with their cumulative offsets
reconstructs `R` exactly. -/
theorem C3_slice_concat_round_trip (R : RangeSet) (N a b : Nat)
    (hab : a ≤ b) (hbN : b ≤ N)
    (hsorted : List.Pairwise (fun x y => x.keyLE y = true) R)
    (hsep : List.Pairwise noInteract R)
    (hbound : ∀ r ∈ R, 0 < r.length ∧ r.stop ≤ N) :
    propagate_concat [(RangeSet.slice R 0 a, a), (RangeSet.slice R a b, b - a),
                      (RangeSet.slice R b N, N - b)] = R := by
  have h2 := inner_window R [] a b hab (by simpa using hsep)
  have h3 := inner_window R [] b N hbN (by simpa using hsep)
  rw [show clipList 0 b ([] : List TaintRange) = [] from rfl,
    List.nil_append, List.nil_append] at h2
  rw [show clipList 0 N ([] : List TaintRange) = [] from rfl,
    List.nil_append, List.nil_append] at h3
  simp only [propagate_concat, List.map_cons, List.map_nil, cumOffsets,
    RangeSet.merge_all, List.zip_cons_cons, List.zip_nil_left,
    List.foldl_cons, List.foldl_nil, Nat.zero_add]
  rw [Nat.sub_add_cancel hab]
  rw [slice_map_shift, slice_map_shift, slice_map_shift]
  rw [h2, h3, clipList_full R N hbound,
    insertAll_id R hsorted (hsep.imp (fun h => noInteract_mergePred _ _ h))]

/-- C3 witness: the round trip at a concrete RangeSet with two Sources,
`N = 6`, cut points `a = 1`, `b = 4`. -/
theorem C3_witness :
    propagate_concat
      [(RangeSet.slice [⟨0, 2, ⟨"s", 0, none⟩⟩, ⟨3, 2, ⟨"t", 1, none⟩⟩] 0 1, 1),
       (RangeSet.slice [⟨0, 2, ⟨"s", 0, none⟩⟩, ⟨3, 2, ⟨"t", 1, none⟩⟩] 1 4, 4 - 1),
       (RangeSet.slice [⟨0, 2, ⟨"s", 0, none⟩⟩, ⟨3, 2, ⟨"t", 1, none⟩⟩] 4 6, 6 - 4)] =
      [⟨0, 2, ⟨"s", 0, none⟩⟩, ⟨3, 2, ⟨"t", 1, none⟩⟩] :=
  C3_slice_concat_round_trip [⟨0, 2, ⟨"s", 0, none⟩⟩, ⟨3, 2, ⟨"t", 1, none⟩⟩]
    6 1 4 (by decide) (by decide) (by decide)
    (by
      constructor
      · intro b hb
        rw [List.mem_singleton] at hb
        subst hb
        intro h
        cases h
      · exact List.pairwise_singleton _ _)
    (by decide)

/-- C8: every call to the identity allocator returns an integer strictly
greater than the one returned by every earlier call, hence process-unique. -/
theorem C8_next_id_strict_mono (st i j : Nat) (h : i < j) :
    nthId st i < nthId st j := by
  have key : ∀ k st, nthId st k = st + k := by
    intro k
    induction k with
    | zero => intro st; rfl
    | succ n ih =>
      intro st
      show nthId (st + 1) n = st + (n + 1)
      rw [ih]
      omega
  rw [key, key]
  omega

/-- C8 witness: the first call returns a smaller id than the second. -/
theorem C8_witness : nthId 0 0 < nthId 0 1 :=
  C8_next_id_strict_mono 0 0 1 (by decide)

/-- C7: after `forget(identity)` the registry lookup for that identity is
`not_found`, regardless of any taint previously attached (the registry is
universally quantified, including states built by `attach`), and the
caller-facing `get_ranges` view of `not_found` is the empty RangeSet. -/
theorem C7_forget_lookup_not_found (reg : Registry) (ident : Identity) :
    Registry.lookup (Registry.forget reg ident) ident = none ∧
    Registry.get_ranges (Registry.forget reg ident) ident = [] := by
  have h : Registry.lookup (Registry.forget reg ident) ident = none := by
    unfold Registry.lookup Registry.forget
    induction reg with
    | nil => simp
    | cons e tl ih =>
      by_cases he : e.1 = ident
      · simp [List.filter_cons, he, ih]
      · simp only [List.filter_cons]
        have : (e.1 != ident) = true := by simp [he]
        simp only [this, if_true]
        rw [List.find?_cons_of_neg]
        · exact ih
        · simp [he]
  exact ⟨h, by simp [Registry.get_ranges, h]⟩

/-- C9: the native module's public surface is exactly the two methods
`setup` and `new_pyobject_id` and the two exported types `TaintRange` and
`Source`; no entry point named `taint`, `get_ranges`, `propagate` or
`forget` is registered. -/
theorem C9_module_surface :
    (PyInit_native ⟨true, true, true, true, true⟩).result =
      some { methods := ["setup", "new_pyobject_id"],
             attrs := [("TaintRange", PyObj.taintRangeType),
                       ("Source", PyObj.sourceType)] } ∧
    "taint" ∉ TaintTrackingMethods ∧
    "get_ranges" ∉ TaintTrackingMethods ∧
    "propagate" ∉ TaintTrackingMethods ∧
    "forget" ∉ TaintTrackingMethods := by
  refine ⟨rfl, ?_, ?_, ?_, ?_⟩ <;> decide

/-- C10: `PyInit__native` returns a module exactly when readying both types,
creating the module and both `PyModule_AddObject` calls succeed; on any
failure it returns null; on an add failure it releases the type reference it
took and the module; and a returned module always carries both types. -/
theorem C10_init_failure_paths (e : InitEnv) :
    ((PyInit_native e).result.isSome = true ↔
      (e.readyTaintRange = true ∧ e.readySource = true ∧ e.createModule = true ∧
       e.addTaintRange = true ∧ e.addSource = true)) ∧
    (e.readyTaintRange = true → e.readySource = true → e.createModule = true →
      e.addTaintRange = false →
      (PyInit_native e).result = none ∧
      (PyInit_native e).decrefs = [.taintRangeType, .moduleObj]) ∧
    (e.readyTaintRange = true → e.readySource = true → e.createModule = true →
      e.addTaintRange = true → e.addSource = false →
      (PyInit_native e).result = none ∧
      (PyInit_native e).decrefs = [.sourceType, .moduleObj]) ∧
    (∀ m, (PyInit_native e).result = some m →
      m.attrs = [("TaintRange", PyObj.taintRangeType),
                 ("Source", PyObj.sourceType)]) := by
  obtain ⟨b1, b2, b3, b4, b5⟩ := e
  cases b1 <;> cases b2 <;> cases b3 <;> cases b4 <;> cases b5 <;>
    simp [PyInit_native]

/-- C10 witness: the failure branches of `C10_init_failure_paths` evaluated
at concrete environments. -/
theorem C10_witness :
    (PyInit_native ⟨true, true, true, false, true⟩).decrefs =
      [.taintRangeType, .moduleObj] ∧
    (PyInit_native ⟨true, true, true, true, false⟩).decrefs =
      [.sourceType, .moduleObj] :=
  ⟨((C10_init_failure_paths ⟨true, true, true, false, true⟩).2.1 rfl rfl rfl rfl).2,
   ((C10_init_failure_paths ⟨true, true, true, true, false⟩).2.2.1 rfl rfl rfl rfl rfl).2⟩

/-- C6: `TaintRange.create` fails with `InvalidRange` exactly when
`length <= 0` or `start < 0`, and on all other inputs succeeds with the very
interval requested — never a clamped or adjusted one. -/
theorem C6_create_invalid_iff (s l : Int) (src : Source) :
    (TaintRange.create s l src = .error .invalidRange ↔ (l ≤ 0 ∨ s < 0)) ∧
    (0 < l → 0 ≤ s →
      TaintRange.create s l src =
        .ok { start := s.toNat, length := l.toNat, source := src }) := by
  constructor
  · constructor
    · intro h
      by_contra hc
      simp [TaintRange.create, hc] at h
    · intro h
      simp [TaintRange.create, h]
  · intro hl hs
    have : ¬(l ≤ 0 ∨ s < 0) := by omega
    simp [TaintRange.create, this]

/-- C6 witness: `create` at concrete valid and invalid inputs. -/
theorem C6_witness :
    (TaintRange.create 3 (-1) ⟨"p", 0, none⟩ = .error .invalidRange ↔
      ((-1 : Int) ≤ 0 ∨ (3 : Int) < 0)) ∧
    TaintRange.create 3 4 ⟨"p", 0, none⟩ =
      .ok { start := 3, length := 4, source := ⟨"p", 0, none⟩ } :=
  ⟨(C6_create_invalid_iff 3 (-1) ⟨"p", 0, none⟩).1,
   (C6_create_invalid_iff 3 4 ⟨"p", 0, none⟩).2 (by decide) (by decide)⟩

/-- C5: replacing a zero-length match at position `p` is the three-part
concatenation of the sliced head, the replacement and the sliced tail with
their lengths. -/
theorem C5_replace_zero_match_is_concat (r repl : RangeSet) (n p rl : Nat)
    (_hp : p ≤ n) :
    propagate_replace r n p 0 repl rl =
      propagate_concat [(RangeSet.slice r 0 p, p), (repl, rl),
                        (RangeSet.slice r p n, n - p)] := by
  simp [propagate_replace, propagate_concat, cumOffsets, Nat.add_comm]

/-- C5 witness: the replace/concat agreement at a concrete state. -/
theorem C5_witness :
    propagate_replace [⟨0, 4, ⟨"p", 0, none⟩⟩] 4 2 0 [⟨0, 1, ⟨"q", 1, none⟩⟩] 1 =
      propagate_concat
        [(RangeSet.slice [⟨0, 4, ⟨"p", 0, none⟩⟩] 0 2, 2),
         ([⟨0, 1, ⟨"q", 1, none⟩⟩], 1),
         (RangeSet.slice [⟨0, 4, ⟨"p", 0, none⟩⟩] 2 4, 4 - 2)] :=
  C5_replace_zero_match_is_concat [⟨0, 4, ⟨"p", 0, none⟩⟩] [⟨0, 1, ⟨"q", 1, none⟩⟩]
    4 2 1 (by decide)
